import Mathlib

/-!
Shallow embedding of the RELION beam-tilt estimation pipeline:
`TiltEstimator` (`processMicrograph`, `parametricFit`, `isFinished`,
`read` defaults) together with the declarations it uses from
`src/jaz/obs_model.h`.  `RFLOAT`/`double` values are idealised as `ℚ`,
the RELION `Complex` as a pair of rationals, a raster image as a function
of (y, x), and the filesystem as a partial map from filenames to
real-valued rasters.  External helper routines whose bodies are not in
the excerpt (`TiltHelper`, `FilterHelper`, `ReferenceMap`,
`CtfRefiner::getOutputFilenameRoot`, `ComplexIO`) enter as opaque data
or are modelled from the specification, as flagged in doc comments.
-/

namespace Relion

/-- RELION `Complex`: a pair (re, im) of idealised reals. -/
abbrev Cpx := ℚ × ℚ

/-- a complex image over the half spectrum, indexed (y, x). -/
abbrev CImg := ℕ → ℕ → Cpx

/-- a real image over the half spectrum, indexed (y, x). -/
abbrev RImg := ℕ → ℕ → ℚ

/-- componentwise division of a complex value by a real. -/
def Cpx.divR (z : Cpx) (w : ℚ) : Cpx := (z.1 / w, z.2 / w)

/-- the filesystem: a filename holds a real-valued raster or is absent. -/
abbrev FS := String → Option RImg

/-- the `exists(fn)` file-presence check of the source. -/
def fexists (fs : FS) (n : String) : Bool := (fs n).isSome

/-- name of the real component of the complex accumulator checkpoint:
`outRoot + "_xyAcc_optics-class_" + cns + "_real.mrc"`. -/
def xyRealName (outRoot cns : String) : String :=
  outRoot ++ "_xyAcc_optics-class_" ++ cns ++ "_real.mrc"

/-- name of the imaginary component of the complex accumulator checkpoint. -/
def xyImagName (outRoot cns : String) : String :=
  outRoot ++ "_xyAcc_optics-class_" ++ cns ++ "_imag.mrc"

/-- name of the weight accumulator checkpoint:
`outRoot + "_wAcc_optics-class_" + cns + ".mrc"`. -/
def wName (outRoot cns : String) : String :=
  outRoot ++ "_wAcc_optics-class_" ++ cns ++ ".mrc"

/-- the data the estimator draws from one micrograph metadata table `mdt`:
its output-filename root (`CtfRefiner::getOutputFilenameRoot(mdt, outPath)`,
an external routine, hence carried as data) and the optics-group ids
declared by its particles. -/
structure Batch where
  outRoot : String
  particles : List ℕ

/-- Modelled from the spec: `ObservationModel::getOptGroupsPresent` (only its
declaration appears in the excerpt) returns the set of optics groups present
in the particle table. -/
def optGroupsPresent (mdt : Batch) : List ℕ := mdt.particles.dedup

/-- Modelled from the spec: `ComplexIO::write(img, base, ".mrc")` persists a
complex image as its two real components, under the `_real.mrc` and
`_imag.mrc` names that `parametricFit` and `isFinished` check. -/
def writeComplex (fs : FS) (outRoot cns : String) (img : CImg) : FS :=
  fun n =>
    if n = xyRealName outRoot cns then some (fun y x => (img y x).1)
    else if n = xyImagName outRoot cns then some (fun y x => (img y x).2)
    else fs n

/-- write of a real image under one name (`Image::write`). -/
def writeImage (fs : FS) (name : String) (img : RImg) : FS :=
  fun n => if n = name then some img else fs n

/-- one iteration of the checkpoint-writing loop of `processMicrograph`:
persist the complex accumulator of group `g` (as its two components) and its
weight accumulator. -/
def pmWrite (mdt : Batch) (xySums : ℕ → CImg) (wSums : ℕ → RImg) (fs : FS)
    (g : ℕ) : FS :=
  writeImage (writeComplex fs mdt.outRoot (toString g) (xySums g))
    (wName mdt.outRoot (toString g)) (wSums g)

/-- filesystem effect of `TiltEstimator::processMicrograph`: for every optics
group present in the batch, write the merged accumulator pair under the
deterministic checkpoint names derived from the batch root and the literal
group number. -/
def processMicrographFS (fs : FS) (mdt : Batch) (xySums : ℕ → CImg)
    (wSums : ℕ → RImg) : FS :=
  (optGroupsPresent mdt).foldl (pmWrite mdt xySums wSums) fs

/-- check of `TiltEstimator::isFinished`: every optics group present in `mdt` has all
three checkpoint files (the source loop with an early `break` denotes `all`). -/
def isFinished (fs : FS) (mdt : Batch) : Bool :=
  (optGroupsPresent mdt).all fun g =>
    fexists fs (xyRealName mdt.outRoot (toString g)) &&
    fexists fs (xyImagName mdt.outRoot (toString g)) &&
    fexists fs (wName mdt.outRoot (toString g))

/-- state of the per-group merge loop of `parametricFit`: the two running
accumulator images and the `groupUsed` flag. -/
@[ext] structure MergeSt where
  xyAccSum : CImg
  wAccSum : RImg
  used : Bool

/-- the checkpoint contribution of one batch for the optics-group label `cns`:
present iff all three files exist, in which case the complex accumulator is
reassembled from its two components. -/
def batchContrib (fs : FS) (cns : String) (mdt : Batch) : Option (CImg × RImg) :=
  if fexists fs (xyRealName mdt.outRoot cns) &&
      fexists fs (xyImagName mdt.outRoot cns) &&
      fexists fs (wName mdt.outRoot cns) then
    some
      (fun y x =>
        (((fs (xyRealName mdt.outRoot cns)).getD (fun _ _ => 0)) y x,
         ((fs (xyImagName mdt.outRoot cns)).getD (fun _ _ => 0)) y x),
       (fs (wName mdt.outRoot cns)).getD (fun _ _ => 0))
  else none

/-- one iteration of the merge loop: add the pair of the batch into the running
sums and set `groupUsed`, or skip the batch silently. -/
def mergeStep (fs : FS) (cns : String) (st : MergeSt) (mdt : Batch) : MergeSt :=
  match batchContrib fs cns mdt with
  | some c => ⟨st.xyAccSum + c.1, st.wAccSum + c.2, true⟩
  | none => st

/-- the merge loop of `parametricFit` over all batches, starting from
zero-initialised sums and `groupUsed = false`. -/
def mergeAcc (fs : FS) (cns : String) (mdts : List Batch) : MergeSt :=
  mdts.foldl (mergeStep fs cns) ⟨0, 0, false⟩

/-- the four scalar parameters of the planar (stage-1) model. -/
structure TiltParams where
  shift_x : ℚ
  shift_y : ℚ
  tilt_x : ℚ
  tilt_y : ℚ

/-- Modelled from the spec: the external routines `parametricFit` calls whose
bodies are not in the excerpt (`TiltHelper::fitTiltShift`,
`TiltHelper::optimizeTilt`, `TiltHelper::fitOddZernike`,
`TiltHelper::optimiseOddZernike`, `TiltHelper::extractTilt`,
`FilterHelper::getPhase`, `ReferenceMap::getHollowWeight`,
`ObservationModel::angToPix`, and the `sqrt` primitive), carried as opaque
operations.  `optimizeTilt` and `optimiseOddZernike` take the initial
estimate they refine as their last argument; `extractTilt` projects a
coefficient vector onto its linear component to obtain the tilt. -/
structure Ext where
  fitTiltShift : RImg → RImg → ℚ → ℚ → ℚ → TiltParams × RImg
  optimizeTilt : CImg → RImg → ℚ → ℚ → ℚ → Bool → TiltParams → TiltParams × RImg
  fitOddZernike : CImg → RImg → ℚ → ℤ → List ℚ × RImg
  optimiseOddZernike : CImg → RImg → ℚ → ℤ → List ℚ → List ℚ × RImg
  extractTilt : List ℚ → ℚ → ℚ → ℚ × ℚ
  getPhase : CImg → RImg
  hollowWeight : ℚ → RImg
  angToPix : ℚ → ℕ → ℕ → ℚ
  sqrtQ : ℚ → ℚ

/-- the scalar state of a `TiltEstimator` after `read` and `init`:
image size `s`, half-spectrum width `sh`, pixel size, the `--kmin_tilt`,
`--odd_aberr_max_n`, `--xr0`, `--xr1` options, the number of optics groups
and the per-group `Cs` and `lambda` arrays of the observation model. -/
structure Params where
  s : ℕ
  sh : ℕ
  angpix : ℚ
  kmin : ℚ
  aberr_n_max : ℤ
  xring0 : ℚ
  xring1 : ℚ
  ogc : ℕ
  Cs : ℕ → ℚ
  lambda : ℕ → ℚ

/-- the signed vertical frequency of row `y`: `y <= sh ? y : y - s`. -/
def yy (P : Params) (y : ℕ) : ℤ := if y ≤ P.sh then (y : ℤ) else (y : ℤ) - P.s

/-- the radial frequency `rp = sqrt(xx*xx + yy*yy)` of pixel (y, x). -/
def rp (E : Ext) (P : Params) (y x : ℕ) : ℚ :=
  E.sqrtQ ((x : ℚ) * (x : ℚ) + (yy P y : ℚ) * (yy P y : ℚ))

/-- the physical distance `ra = s * angpix / rp` of pixel (y, x); the
division is exactly that of the source, with no guard for `rp = 0`. -/
def ra (E : Ext) (P : Params) (y x : ℕ) : ℚ :=
  (P.s : ℚ) * P.angpix / rp E P y x

/-- write value `v` into pixel (y, x) of a real image. -/
def updPix (w : RImg) (y x : ℕ) (v : ℚ) : RImg :=
  fun b a => if b = y ∧ a = x then v else w b a

/-- the row-major pixel sweep `for y in [0,s), for x in [0,sh)`. -/
def pixList (s sh : ℕ) : List (ℕ × ℕ) :=
  (List.range s).flatMap fun y => (List.range sh).map fun x => (y, x)

/-- body of the exclusion-ring loop: zero the mask pixel when
`ra > xring0 && ra <= xring1`, otherwise leave it. -/
def ringStep (E : Ext) (P : Params) (w : RImg) (p : ℕ × ℕ) : RImg :=
  if ra E P p.1 p.2 > P.xring0 ∧ ra E P p.1 p.2 ≤ P.xring1 then
    updPix w p.1 p.2 0
  else w

/-- the exclusion-ring pass of `parametricFit`: run the pixel loop only when
`xring1 > 0`, otherwise leave the mask untouched. -/
def applyXRing (E : Ext) (P : Params) (w : RImg) : RImg :=
  if P.xring1 > 0 then (pixList P.s P.sh).foldl (ringStep E P) w else w

/-- the fit mask before the exclusion ring: the merged weight multiplied,
pixel by pixel, by the hollow band-pass weight `getHollowWeight(kmin_px)`
with `kmin_px = angToPix(kmin, s)` (`FilterHelper::multiply` is pointwise
multiplication). -/
def wghOf (E : Ext) (P : Params) (st : MergeSt) (og : ℕ) : RImg :=
  applyXRing E P fun y x =>
    st.wAccSum y x * E.hollowWeight (E.angToPix P.kmin P.s og) y x

/-- the normalised empirical phase field:
`xyNrm(y,x) = wAccSum(y,x) > 0 ? xyAccSum(y,x)/wAccSum(y,x) : Complex(0,0)`. -/
def xyNrmOf (xyAccSum : CImg) (wAccSum : RImg) : CImg :=
  fun y x =>
    if wAccSum y x > 0 then Cpx.divR (xyAccSum y x) (wAccSum y x) else (0, 0)

/-- the stage-1 closed-form linear estimate: `TiltHelper::fitTiltShift` on the
phase of the merged accumulator and the fit mask. -/
def linFit (E : Ext) (P : Params) (st : MergeSt) (og : ℕ) : TiltParams × RImg :=
  E.fitTiltShift (E.getPhase st.xyAccSum) (wghOf E P st og) (P.Cs og)
    (P.lambda og) P.angpix

/-- the stage-1 nonlinear refinement: `TiltHelper::optimizeTilt` on the
normalised complex field, initialised from the linear estimate `linFit`. -/
def optFit (E : Ext) (P : Params) (st : MergeSt) (og : ℕ) : TiltParams × RImg :=
  E.optimizeTilt (xyNrmOf st.xyAccSum st.wAccSum) (wghOf E P st og) (P.Cs og)
    (P.lambda og) P.angpix false (linFit E P st og).1

/-- the stage-2 closed-form linear estimate: `TiltHelper::fitOddZernike`. -/
def linZer (E : Ext) (P : Params) (st : MergeSt) (og : ℕ) : List ℚ × RImg :=
  E.fitOddZernike (xyNrmOf st.xyAccSum st.wAccSum) (wghOf E P st og) P.angpix
    P.aberr_n_max

/-- the stage-2 nonlinear refinement: `TiltHelper::optimiseOddZernike`,
initialised from the linear coefficient estimate `linZer`. -/
def optZer (E : Ext) (P : Params) (st : MergeSt) (og : ℕ) : List ℚ × RImg :=
  E.optimiseOddZernike (xyNrmOf st.xyAccSum st.wAccSum) (wghOf E P st og)
    P.angpix P.aberr_n_max (linZer E P st og).1

/-- a column label of the optics metadata table; the three labels written by
`parametricFit` are distinguished, every other column is `other`. -/
inductive Label where
  | beamtiltX : Label
  | beamtiltY : Label
  | oddZernikeCoeffs : Label
  | other : String → Label
deriving DecidableEq

/-- a cell value of the metadata table. -/
inductive CellV where
  | num : ℚ → CellV
  | vec : List ℚ → CellV
  | raw : String → CellV
deriving DecidableEq

/-- the optics metadata table: row index (0-based group) times column. -/
abbrev Table := ℕ → Label → CellV

/-- write of one cell of row `og` (`MetaDataTable::setValue(label, v, og)`). -/
def setValue (tbl : Table) (l : Label) (v : CellV) (og : ℕ) : Table :=
  fun r c => if r = og ∧ c = l then v else tbl r c

/-- the body of the per-group loop of `parametricFit` for 0-based group `og`:
merge the checkpointed accumulators of all batches; if no batch contributed,
leave the table unchanged; otherwise run the `aberr_n_max < 3` planar branch
(write tilt X/Y from the refined planar fit) or the polynomial branch (write
tilt X/Y extracted from the refined coefficients, and the coefficients). -/
def fitGroup (E : Ext) (P : Params) (fs : FS) (mdts : List Batch)
    (tbl : Table) (og : ℕ) : Table :=
  let st := mergeAcc fs (toString (og + 1)) mdts
  if st.used = false then tbl
  else if P.aberr_n_max < 3 then
    setValue
      (setValue tbl .beamtiltX (.num (optFit E P st og).1.tilt_x) og)
      .beamtiltY (.num (optFit E P st og).1.tilt_y) og
  else
    setValue
      (setValue
        (setValue tbl .beamtiltX
          (.num (E.extractTilt (optZer E P st og).1 (P.Cs og) (P.lambda og)).1) og)
        .beamtiltY
        (.num (E.extractTilt (optZer E P st og).1 (P.Cs og) (P.lambda og)).2) og)
      .oddZernikeCoeffs (.vec (optZer E P st og).1) og

/-- the whole of `TiltEstimator::parametricFit`: the group loop `for og in [0, ogc)` over
the output optics table. -/
def parametricFit (E : Ext) (P : Params) (fs : FS) (mdts : List Batch)
    (optOut : Table) : Table :=
  (List.range P.ogc).foldl (fitGroup E P fs mdts) optOut

/-- per-worker private accumulator of the parallel loop of
`processMicrograph`: worker `t` adds, one particle at a time, the
contributions of the particles assigned to it whose group index is `ci`;
since the additions land in a worker-private buffer, the value of the slot is the
sum of those contributions.  `contrib p` is the image added for particle `p`
(modelled from the spec: `TiltHelper::updateTiltShift` accumulates the
per-particle phase-difference and weight contribution by summation). -/
def slotAcc {M : Type} [AddCommMonoid M] (contrib : ℕ → M) (tOf ciOf : ℕ → ℕ)
    (pc t ci : ℕ) : M :=
  ∑ p ∈ (Finset.range pc).filter (fun p => tOf p = t ∧ ciOf p = ci), contrib p

/-- the reduction loop of `processMicrograph`: for group index `ci`, fold the
per-worker slots of all `T` workers into one accumulator (the code line
`ImageOp::linearCombination(acc, slot, 1.0, 1.0, acc)` starting from the
zero image). -/
def reducedAcc {M : Type} [AddCommMonoid M] (contrib : ℕ → M) (tOf ciOf : ℕ → ℕ)
    (pc T ci : ℕ) : M :=
  (List.range T).foldl (fun a t => a + slotAcc contrib tOf ciOf pc t ci) 0

/-- the plain (scheduling-free) sum of the contributions of the particles of
group index `ci`. -/
def groupSum {M : Type} [AddCommMonoid M] (contrib : ℕ → M) (ciOf : ℕ → ℕ)
    (pc ci : ℕ) : M :=
  ∑ p ∈ (Finset.range pc).filter (fun p => ciOf p = ci), contrib p

/-- Modelled from the spec: `ObservationModel::findUndefinedOptGroups` (only
its declaration is in the excerpt) — the optics groups referenced by the
particle table that are not among the defined registry groups `1..ogc`. -/
def findUndefinedOptGroups (ogc : ℕ) (mdt : Batch) : List ℕ :=
  (optGroupsPresent mdt).filter fun g => !(decide (1 ≤ g) && decide (g ≤ ogc))

/-- Modelled from the spec: the loading/validation step surfaces undefined
optics groups referenced by particles as a blocking configuration error
before any accumulation begins; only when the check passes does
`processMicrograph` run and write its checkpoints. -/
def loadAndProcess (ogc : ℕ) (fs : FS) (mdt : Batch) (xySums : ℕ → CImg)
    (wSums : ℕ → RImg) : Except String FS :=
  if findUndefinedOptGroups ogc mdt ≠ [] then
    .error ("ERROR: undefined optics groups referenced in " ++ mdt.outRoot)
  else
    .ok (processMicrographFS fs mdt xySums wSums)

/-- Modelled from the spec: one step of the checkpoint writer — stage a file
at a provisional name, or atomically publish a set of files under their final
names in a single step (the stage-then-publish discipline the spec prescribes
for CheckpointStore.write; the bodies of `ComplexIO::write` and
`Image::write` are not in the excerpt). -/
inductive WStep where
  | stage : String → RImg → WStep
  | publish : List (String × RImg) → WStep

/-- writer state: the staged (provisional) files and the published filesystem
a reader observes. -/
structure WState where
  staged : FS
  pub : FS

/-- semantics of one writer step: staging touches only the provisional
space, publishing installs all listed final names at once. -/
def wstep (st : WState) : WStep → WState
  | .stage n img => ⟨fun m => if m = n then some img else st.staged m, st.pub⟩
  | .publish l =>
      ⟨st.staged, fun m =>
        match l.find? (fun e => e.1 = m) with
        | some e => some e.2
        | none => st.pub m⟩

/-- run a list of writer steps from a state. -/
def runW (st : WState) (steps : List WStep) : WState := steps.foldl wstep st

/-- Modelled from the spec: the write of one (batch, group) checkpoint pair —
stage the three files at provisional `.tmp` names, then publish the three
final names in one atomic step. -/
def writePairTrace (outRoot cns : String) (reC imC w : RImg) : List WStep :=
  [ .stage (xyRealName outRoot cns ++ ".tmp") reC,
    .stage (xyImagName outRoot cns ++ ".tmp") imC,
    .stage (wName outRoot cns ++ ".tmp") w,
    .publish [(xyRealName outRoot cns, reC), (xyImagName outRoot cns, imC),
              (wName outRoot cns, w)] ]

/-- the constant-one real image, a concrete raster for witnesses. -/
def oneImg : RImg := fun _ _ => 1

/-- a filesystem on which every name holds the constant-one raster. -/
def fsAll : FS := fun _ => some oneImg

/-- the empty filesystem. -/
def fsNone : FS := fun _ => none

/-- a concrete one-particle batch. -/
def sampleBatch : Batch := ⟨"r", [1]⟩

/-- a concrete batch referencing an undefined optics group. -/
def badBatch : Batch := ⟨"q", [5]⟩

/-- concrete external operations with recognisable outputs, for witnesses. -/
def sampleExt : Ext where
  fitTiltShift := fun _ _ _ _ _ => (⟨1, 2, 3, 4⟩, 0)
  optimizeTilt := fun _ _ _ _ _ _ t => (⟨t.shift_x, t.shift_y, 5, 7⟩, 0)
  fitOddZernike := fun _ _ _ _ => ([1, 2], 0)
  optimiseOddZernike := fun _ _ _ _ c => (c ++ [9], 0)
  extractTilt := fun _ _ _ => (11, 13)
  getPhase := fun _ => 0
  hollowWeight := fun _ _ _ => 1
  angToPix := fun a _ _ => a
  sqrtQ := fun q => if q = 25 then 5 else 0

/-- concrete estimator parameters for witnesses (planar branch, no ring). -/
def sampleP : Params where
  s := 2
  sh := 2
  angpix := 1
  kmin := 20
  aberr_n_max := 0
  xring0 := -1
  xring1 := -1
  ogc := 1
  Cs := fun _ => 1
  lambda := fun _ => 1

/-- concrete estimator parameters for witnesses (Zernike branch). -/
def samplePZ : Params where
  s := 2
  sh := 2
  angpix := 1
  kmin := 20
  aberr_n_max := 3
  xring0 := -1
  xring1 := -1
  ogc := 1
  Cs := fun _ => 1
  lambda := fun _ => 1

/-- concrete estimator parameters with an active exclusion ring. -/
def sampleRingP : Params where
  s := 8
  sh := 5
  angpix := 1
  kmin := 20
  aberr_n_max := 0
  xring0 := 1
  xring1 := 2
  ogc := 1
  Cs := fun _ => 1
  lambda := fun _ => 1

/-- a zeroed optics table for witnesses. -/
def sampleTbl : Table := fun _ _ => .num 0

theorem mem_pixList {s sh y x : ℕ} : (y, x) ∈ pixList s sh ↔ y < s ∧ x < sh := by
  simp only [pixList, List.mem_flatMap, List.mem_map, List.mem_range,
    Prod.mk.injEq]
  constructor
  · rintro ⟨a, ha, b, hb, h1, h2⟩
    subst h1; subst h2; exact ⟨ha, hb⟩
  · rintro ⟨hy, hx⟩
    exact ⟨y, hy, x, hx, rfl, rfl⟩

theorem ringFold_apply (E : Ext) (P : Params) (ps : List (ℕ × ℕ)) (w : RImg)
    (y x : ℕ) :
    (ps.foldl (ringStep E P) w) y x =
      if (y, x) ∈ ps ∧ ra E P y x > P.xring0 ∧ ra E P y x ≤ P.xring1 then 0
      else w y x := by
  induction ps generalizing w with
  | nil => simp
  | cons a ps ih =>
    rw [List.foldl_cons, ih]
    by_cases hc : ra E P y x > P.xring0 ∧ ra E P y x ≤ P.xring1
    · by_cases hm2 : (y, x) ∈ ps
      · rw [if_pos ⟨hm2, hc⟩, if_pos ⟨List.mem_cons_of_mem a hm2, hc⟩]
      · rw [if_neg fun hh => hm2 hh.1]
        by_cases ha : a = (y, x)
        · subst ha
          rw [if_pos ⟨List.mem_cons_self _ _, hc⟩]
          simp [ringStep, hc, updPix]
        · rw [if_neg fun hh => ha (by
            rcases List.mem_cons.mp hh.1 with h | h
            · exact h.symm
            · exact absurd h hm2)]
          have hne : ¬(y = a.1 ∧ x = a.2) := by
            rintro ⟨h1, h2⟩
            exact ha (by rcases a with ⟨a1, a2⟩; simp_all)
          by_cases hca : ra E P a.1 a.2 > P.xring0 ∧ ra E P a.1 a.2 ≤ P.xring1
          · simp [ringStep, hca, updPix, hne]
          · simp [ringStep, hca]
    · rw [if_neg fun hh => hc hh.2, if_neg fun hh => hc hh.2]
      by_cases hca : ra E P a.1 a.2 > P.xring0 ∧ ra E P a.1 a.2 ≤ P.xring1
      · have hne : ¬(y = a.1 ∧ x = a.2) := by
          rintro ⟨h1, h2⟩
          subst h1; subst h2; exact hc hca
        simp [ringStep, hca, updPix, hne]
      · simp [ringStep, hca]

theorem applyXRing_apply (E : Ext) (P : Params) (w : RImg) (y x : ℕ) :
    applyXRing E P w y x =
      if P.xring1 > 0 ∧ y < P.s ∧ x < P.sh ∧
          ra E P y x > P.xring0 ∧ ra E P y x ≤ P.xring1 then 0
      else w y x := by
  unfold applyXRing
  by_cases hx : P.xring1 > 0
  · rw [if_pos hx, ringFold_apply]
    exact if_congr (by rw [mem_pixList]; tauto) rfl rfl
  · rw [if_neg hx, if_neg fun hh => hx hh.1]

/-- C2: for every pixel of the half-spectrum, the normalised empirical phase
field equals the merged complex accumulator value divided by the merged
weight wherever the merged weight is strictly positive, and equals complex
zero everywhere else, so zero-weight pixels never feed a division. -/
theorem c2_guarded_normalisation (xyAccSum : CImg) (wAccSum : RImg)
    (s sh y x : ℕ) (hy : y < s) (hx : x < sh) :
    (wAccSum y x > 0 →
      xyNrmOf xyAccSum wAccSum y x = Cpx.divR (xyAccSum y x) (wAccSum y x)) ∧
    (¬ wAccSum y x > 0 → xyNrmOf xyAccSum wAccSum y x = (0, 0)) := by
  constructor <;> intro h <;> simp [xyNrmOf, h]

theorem c2_guarded_normalisation_witness :
    (oneImg 0 0 > 0 →
      xyNrmOf (fun _ _ => ((2 : ℚ), (4 : ℚ))) oneImg 0 0 =
        Cpx.divR (2, 4) (oneImg 0 0)) ∧
    (¬ oneImg 0 0 > 0 →
      xyNrmOf (fun _ _ => ((2 : ℚ), (4 : ℚ))) oneImg 0 0 = (0, 0)) :=
  c2_guarded_normalisation (fun _ _ => (2, 4)) oneImg 1 1 0 0 (by decide)
    (by decide)

/-- C8: when `xring1 > 0`, the exclusion-ring pass sets the fit mask to
exactly 0 at every half-spectrum pixel whose physical distance
`ra = s * angpix / rp` lies in `(xring0, xring1]`, whatever the accumulated
weight there was; when `xring1 ≤ 0` the pass changes no pixel. -/
theorem c8_exclusion_ring (E : Ext) (P : Params) (w : RImg) :
    (P.xring1 > 0 → ∀ y, y < P.s → ∀ x, x < P.sh →
      ra E P y x > P.xring0 → ra E P y x ≤ P.xring1 →
      applyXRing E P w y x = 0) ∧
    (P.xring1 ≤ 0 → applyXRing E P w = w) := by
  constructor
  · intro h1 y hy x hx hgt hle
    rw [applyXRing_apply, if_pos ⟨h1, hy, hx, hgt, hle⟩]
  · intro h1
    unfold applyXRing
    rw [if_neg (not_lt.mpr h1)]

theorem c8_exclusion_ring_witness :
    applyXRing sampleExt sampleRingP oneImg 4 3 = 0 ∧
    applyXRing sampleExt sampleP oneImg = oneImg :=
  ⟨(c8_exclusion_ring sampleExt sampleRingP oneImg).1 (by norm_num [sampleRingP])
      4 (by norm_num [sampleRingP]) 3 (by norm_num [sampleRingP])
      (by norm_num [ra, rp, yy, sampleExt, sampleRingP])
      (by norm_num [ra, rp, yy, sampleExt, sampleRingP]),
    (c8_exclusion_ring sampleExt sampleP oneImg).2 (by norm_num [sampleP])⟩

/-- C10: in the exclusion-ring branch, at the zero-frequency pixel
(x = 0, y = 0) the divisor `rp` is exactly 0 and the fate of that pixel is decided
by the same unguarded division formula `s * angpix / rp` as every other
pixel — there is no explicit zero-frequency case. -/
theorem c10_unguarded_zero_division (E : Ext) (P : Params) (w : RImg)
    (h0 : E.sqrtQ 0 = 0) (hs : 0 < P.s) (hsh : 0 < P.sh)
    (hx : P.xring1 > 0) :
    rp E P 0 0 = 0 ∧
    applyXRing E P w 0 0 =
      if (P.s : ℚ) * P.angpix / rp E P 0 0 > P.xring0 ∧
          (P.s : ℚ) * P.angpix / rp E P 0 0 ≤ P.xring1 then 0
      else w 0 0 := by
  have hyy : yy P 0 = 0 := by simp [yy]
  have hrp : rp E P 0 0 = 0 := by
    unfold rp
    rw [hyy]
    norm_num
    exact h0
  refine ⟨hrp, ?_⟩
  rw [applyXRing_apply]
  exact if_congr
    ⟨fun h => ⟨h.2.2.2.1, h.2.2.2.2⟩, fun h => ⟨hx, hs, hsh, h.1, h.2⟩⟩ rfl rfl

theorem c10_unguarded_zero_division_witness :
    rp sampleExt sampleRingP 0 0 = 0 ∧
    applyXRing sampleExt sampleRingP oneImg 0 0 =
      if (sampleRingP.s : ℚ) * sampleRingP.angpix / rp sampleExt sampleRingP 0 0
            > sampleRingP.xring0 ∧
          (sampleRingP.s : ℚ) * sampleRingP.angpix / rp sampleExt sampleRingP 0 0
            ≤ sampleRingP.xring1 then 0
      else oneImg 0 0 :=
  c10_unguarded_zero_division sampleExt sampleRingP oneImg
    (by norm_num [sampleExt]) (by norm_num [sampleRingP])
    (by norm_num [sampleRingP]) (by norm_num [sampleRingP])

theorem fexists_writeImage_mono {fs : FS} {m : String} (n : String)
    (img : RImg) (h : fexists fs m = true) :
    fexists (writeImage fs n img) m = true := by
  unfold fexists writeImage
  split <;> simp_all [fexists]

theorem fexists_writeImage_self (fs : FS) (n : String) (img : RImg) :
    fexists (writeImage fs n img) n = true := by
  simp [fexists, writeImage]

theorem fexists_writeComplex_mono {fs : FS} {m : String} (o c : String)
    (img : CImg) (h : fexists fs m = true) :
    fexists (writeComplex fs o c img) m = true := by
  unfold fexists writeComplex
  split
  · simp
  · split <;> simp_all [fexists]

theorem fexists_writeComplex_real (fs : FS) (o c : String) (img : CImg) :
    fexists (writeComplex fs o c img) (xyRealName o c) = true := by
  simp [fexists, writeComplex]

theorem fexists_writeComplex_imag (fs : FS) (o c : String) (img : CImg) :
    fexists (writeComplex fs o c img) (xyImagName o c) = true := by
  unfold fexists writeComplex
  split <;> simp

theorem fexists_pmWrite_mono (mdt : Batch) (xySums : ℕ → CImg)
    (wSums : ℕ → RImg) (g : ℕ) {fs : FS} {m : String}
    (h : fexists fs m = true) :
    fexists (pmWrite mdt xySums wSums fs g) m = true :=
  fexists_writeImage_mono _ _ (fexists_writeComplex_mono _ _ _ h)

theorem pmWrite_self (mdt : Batch) (xySums : ℕ → CImg) (wSums : ℕ → RImg)
    (fs : FS) (g : ℕ) :
    fexists (pmWrite mdt xySums wSums fs g)
        (xyRealName mdt.outRoot (toString g)) = true ∧
    fexists (pmWrite mdt xySums wSums fs g)
        (xyImagName mdt.outRoot (toString g)) = true ∧
    fexists (pmWrite mdt xySums wSums fs g)
        (wName mdt.outRoot (toString g)) = true :=
  ⟨fexists_writeImage_mono _ _ (fexists_writeComplex_real _ _ _ _),
   fexists_writeImage_mono _ _ (fexists_writeComplex_imag _ _ _ _),
   fexists_writeImage_self _ _ _⟩

theorem fexists_pmFold_mono (mdt : Batch) (xySums : ℕ → CImg)
    (wSums : ℕ → RImg) (l : List ℕ) {fs : FS} {m : String}
    (h : fexists fs m = true) :
    fexists (l.foldl (pmWrite mdt xySums wSums) fs) m = true := by
  induction l generalizing fs with
  | nil => exact h
  | cons a l ih =>
    exact ih (fexists_pmWrite_mono mdt xySums wSums a h)

theorem pmFold_writes (mdt : Batch) (xySums : ℕ → CImg) (wSums : ℕ → RImg)
    (l : List ℕ) (fs : FS) (g : ℕ) (hg : g ∈ l) :
    fexists (l.foldl (pmWrite mdt xySums wSums) fs)
        (xyRealName mdt.outRoot (toString g)) = true ∧
    fexists (l.foldl (pmWrite mdt xySums wSums) fs)
        (xyImagName mdt.outRoot (toString g)) = true ∧
    fexists (l.foldl (pmWrite mdt xySums wSums) fs)
        (wName mdt.outRoot (toString g)) = true := by
  induction l generalizing fs with
  | nil => cases hg
  | cons a l ih =>
    rcases List.mem_cons.mp hg with rfl | hg2
    · by_cases hal : g ∈ l
      · exact ih _ hal
      · obtain ⟨h1, h2, h3⟩ := pmWrite_self mdt xySums wSums fs g
        exact ⟨fexists_pmFold_mono mdt xySums wSums l h1,
               fexists_pmFold_mono mdt xySums wSums l h2,
               fexists_pmFold_mono mdt xySums wSums l h3⟩
    · exact ih _ hg2

/-- C4: `isFinished(mdt)` returns true iff, for every optics group present
in the particle table `mdt`, all files of the checkpoint pair of that group (the
real and imaginary components of the complex accumulator and the weight
image) exist under the deterministic output names of the batch; in particular it
returns true immediately after `processMicrograph` has written its
checkpoints for that batch. -/
theorem c4_isFinished_files (fs : FS) (mdt : Batch) (xySums : ℕ → CImg)
    (wSums : ℕ → RImg) :
    (isFinished fs mdt = true ↔
      ∀ g ∈ optGroupsPresent mdt,
        fexists fs (xyRealName mdt.outRoot (toString g)) = true ∧
        fexists fs (xyImagName mdt.outRoot (toString g)) = true ∧
        fexists fs (wName mdt.outRoot (toString g)) = true) ∧
    isFinished (processMicrographFS fs mdt xySums wSums) mdt = true := by
  constructor
  · simp [isFinished, List.all_eq_true, Bool.and_eq_true, and_assoc]
  · rw [isFinished, List.all_eq_true]
    intro g hg
    simp only [Bool.and_eq_true]
    obtain ⟨h1, h2, h3⟩ :=
      pmFold_writes mdt xySums wSums (optGroupsPresent mdt) fs g hg
    exact ⟨⟨h1, h2⟩, h3⟩

theorem c4_isFinished_files_witness :
    (isFinished fsNone sampleBatch = true ↔
      ∀ g ∈ optGroupsPresent sampleBatch,
        fexists fsNone (xyRealName sampleBatch.outRoot (toString g)) = true ∧
        fexists fsNone (xyImagName sampleBatch.outRoot (toString g)) = true ∧
        fexists fsNone (wName sampleBatch.outRoot (toString g)) = true) ∧
    isFinished
        (processMicrographFS fsNone sampleBatch (fun _ _ _ => (0, 0))
          (fun _ => oneImg))
        sampleBatch = true :=
  c4_isFinished_files fsNone sampleBatch (fun _ _ _ => (0, 0)) (fun _ => oneImg)

theorem foldl_add_range {M : Type} [AddCommMonoid M] (f : ℕ → M) (T : ℕ) :
    ∀ a : M, (List.range T).foldl (fun b t => b + f t) a =
      a + ∑ t ∈ Finset.range T, f t := by
  induction T with
  | zero => intro a; simp
  | succ T ih =>
    intro a
    rw [List.range_succ, List.foldl_append, ih, List.foldl_cons, List.foldl_nil,
      Finset.sum_range_succ, add_assoc]

theorem reducedAcc_eq_groupSum {M : Type} [AddCommMonoid M] (contrib : ℕ → M)
    (tOf ciOf : ℕ → ℕ) (pc T ci : ℕ) (hcov : ∀ p, p < pc → tOf p < T) :
    reducedAcc contrib tOf ciOf pc T ci = groupSum contrib ciOf pc ci := by
  unfold reducedAcc groupSum
  rw [foldl_add_range, zero_add]
  have h1 : ∀ t, slotAcc contrib tOf ciOf pc t ci =
      ∑ p ∈ Finset.filter (fun p => tOf p = t)
        ((Finset.range pc).filter fun p => ciOf p = ci), contrib p := by
    intro t
    unfold slotAcc
    congr 1
    rw [Finset.filter_filter]
    exact Finset.filter_congr fun p _ => by tauto
  simp only [h1]
  exact Finset.sum_fiberwise_of_maps_to
    (fun p hp => Finset.mem_range.mpr
      (hcov p (Finset.mem_range.mp (Finset.mem_filter.mp hp).1)))
    contrib

theorem mergeStep_right_comm (fs : FS) (cns : String) (st : MergeSt)
    (b1 b2 : Batch) :
    mergeStep fs cns (mergeStep fs cns st b1) b2 =
      mergeStep fs cns (mergeStep fs cns st b2) b1 := by
  unfold mergeStep
  rcases h1 : batchContrib fs cns b1 with _ | c1 <;>
    rcases h2 : batchContrib fs cns b2 with _ | c2 <;>
      simp only [h1, h2]
  simp [MergeSt.mk.injEq, add_right_comm]

/-- C3: the merged per-group accumulator is scheduling-independent — for any
worker count `T` covering the particles and any assignment `tOf` of
particles to workers, the reduction of the per-worker slots equals the plain
sum of the per-particle contributions of that group (exactly, since the
embedding idealises floating point as exact rationals) — and the merge loop
of `parametricFit` gives the same result for any order of the checkpointed
batches. -/
theorem c3_accumulator_order_invariance (contribXY : ℕ → CImg)
    (contribW : ℕ → RImg) (tOf ciOf : ℕ → ℕ) (pc T ci : ℕ) (fs : FS)
    (cns : String) (mdts mdts2 : List Batch) :
    ((∀ p, p < pc → tOf p < T) →
      reducedAcc contribXY tOf ciOf pc T ci = groupSum contribXY ciOf pc ci ∧
      reducedAcc contribW tOf ciOf pc T ci = groupSum contribW ciOf pc ci) ∧
    (mdts.Perm mdts2 → mergeAcc fs cns mdts = mergeAcc fs cns mdts2) := by
  constructor
  · intro hcov
    exact ⟨reducedAcc_eq_groupSum _ _ _ _ _ _ hcov,
           reducedAcc_eq_groupSum _ _ _ _ _ _ hcov⟩
  · intro hperm
    unfold mergeAcc
    exact @List.Perm.foldl_eq _ _ (mergeStep fs cns) _ _
      ⟨mergeStep_right_comm fs cns⟩ hperm _

theorem c3_accumulator_order_invariance_witness :
    (reducedAcc ((fun p _ _ => ((p : ℚ), 0)) : ℕ → CImg) id (fun _ => 0)
        2 2 0 =
      groupSum ((fun p _ _ => ((p : ℚ), 0)) : ℕ → CImg) (fun _ => 0) 2 0) ∧
    (reducedAcc ((fun p _ _ => (p : ℚ)) : ℕ → RImg) id (fun _ => 0) 2 2 0 =
      groupSum ((fun p _ _ => (p : ℚ)) : ℕ → RImg) (fun _ => 0) 2 0) ∧
    mergeAcc fsAll "1" [sampleBatch, badBatch] =
      mergeAcc fsAll "1" [badBatch, sampleBatch] := by
  obtain ⟨h1, h2⟩ :=
    (c3_accumulator_order_invariance
      ((fun p _ _ => ((p : ℚ), 0)) : ℕ → CImg)
      ((fun p _ _ => (p : ℚ)) : ℕ → RImg) id (fun _ => 0) 2 2 0 fsAll "1"
      [sampleBatch, badBatch] [badBatch, sampleBatch]).1
      (fun p hp => hp)
  exact ⟨h1, h2,
    (c3_accumulator_order_invariance
      ((fun p _ _ => ((p : ℚ), 0)) : ℕ → CImg)
      ((fun p _ _ => (p : ℚ)) : ℕ → RImg) id (fun _ => 0) 2 2 0 fsAll "1"
      [sampleBatch, badBatch] [badBatch, sampleBatch]).2
      (List.Perm.swap _ _ _)⟩

theorem fitGroup_other_row (E : Ext) (P : Params) (fs : FS)
    (mdts : List Batch) (tbl : Table) (og r : ℕ) (c : Label) (h : r ≠ og) :
    fitGroup E P fs mdts tbl og r c = tbl r c := by
  simp only [fitGroup]
  split
  · rfl
  · split <;> simp [setValue, h]

theorem fitGroup_self_row (E : Ext) (P : Params) (fs : FS)
    (mdts : List Batch) (tbl : Table) (og : ℕ) (c : Label) :
    fitGroup E P fs mdts tbl og og c =
      if (mergeAcc fs (toString (og + 1)) mdts).used = false then tbl og c
      else if P.aberr_n_max < 3 then
        if c = Label.beamtiltY then
          CellV.num (optFit E P (mergeAcc fs (toString (og + 1)) mdts) og).1.tilt_y
        else if c = Label.beamtiltX then
          CellV.num (optFit E P (mergeAcc fs (toString (og + 1)) mdts) og).1.tilt_x
        else tbl og c
      else
        if c = Label.oddZernikeCoeffs then
          CellV.vec (optZer E P (mergeAcc fs (toString (og + 1)) mdts) og).1
        else if c = Label.beamtiltY then
          CellV.num (E.extractTilt (optZer E P (mergeAcc fs (toString (og + 1)) mdts) og).1
            (P.Cs og) (P.lambda og)).2
        else if c = Label.beamtiltX then
          CellV.num (E.extractTilt (optZer E P (mergeAcc fs (toString (og + 1)) mdts) og).1
            (P.Cs og) (P.lambda og)).1
        else tbl og c := by
  by_cases hu : (mergeAcc fs (toString (og + 1)) mdts).used = false
  · simp [fitGroup, hu]
  · by_cases hab : P.aberr_n_max < 3 <;> simp [fitGroup, hu, hab, setValue]

theorem foldl_fitGroup_not_mem (E : Ext) (P : Params) (fs : FS)
    (mdts : List Batch) (L : List ℕ) (tbl : Table) (r : ℕ) (c : Label)
    (hr : r ∉ L) :
    (L.foldl (fitGroup E P fs mdts) tbl) r c = tbl r c := by
  induction L generalizing tbl with
  | nil => rfl
  | cons a L ih =>
    rw [List.foldl_cons, ih _ fun h => hr (List.mem_cons_of_mem _ h)]
    exact fitGroup_other_row E P fs mdts tbl a r c
      fun h => hr (h ▸ List.mem_cons_self _ _)

theorem foldl_fitGroup_mem (E : Ext) (P : Params) (fs : FS)
    (mdts : List Batch) (L : List ℕ) (tbl : Table) (r : ℕ) (c : Label)
    (hr : r ∈ L) (hnd : L.Nodup) :
    (L.foldl (fitGroup E P fs mdts) tbl) r c =
      fitGroup E P fs mdts tbl r r c := by
  induction L generalizing tbl with
  | nil => cases hr
  | cons a L ih =>
    rcases List.mem_cons.mp hr with rfl | hr2
    · rw [List.foldl_cons,
        foldl_fitGroup_not_mem E P fs mdts L _ r c (List.nodup_cons.mp hnd).1]
    · have har : r ≠ a := fun h => (List.nodup_cons.mp hnd).1 (h ▸ hr2)
      rw [List.foldl_cons, ih _ hr2 (List.nodup_cons.mp hnd).2,
        fitGroup_self_row, fitGroup_self_row,
        fitGroup_other_row E P fs mdts tbl a r c har]

theorem parametricFit_row (E : Ext) (P : Params) (fs : FS)
    (mdts : List Batch) (tbl : Table) (r : ℕ) (c : Label) :
    parametricFit E P fs mdts tbl r c =
      if r < P.ogc then fitGroup E P fs mdts tbl r r c else tbl r c := by
  unfold parametricFit
  by_cases hr : r < P.ogc
  · rw [if_pos hr]
    exact foldl_fitGroup_mem E P fs mdts _ tbl r c (List.mem_range.mpr hr)
      (List.nodup_range _)
  · rw [if_neg hr]
    exact foldl_fitGroup_not_mem E P fs mdts _ tbl r c
      fun h => hr (List.mem_range.mp h)

/-- C1: for every optics group with at least one checkpointed accumulator
pair, `parametricFit` takes the planar branch when `aberr_n_max < 3` and the
odd-Zernike branch when `aberr_n_max ≥ 3`; in both branches the closed-form
linear estimate (`linFit` resp. `linZer`) initialises the nonlinear
refinement (`optFit` resp. `optZer` — the initialisation is part of those
definitions), the refined tilt X/Y are written to the output optics table in
both branches, and the coefficient vector is written only in the Zernike
branch, where tilt X/Y are obtained as the projection by `extractTilt` of the
optimised coefficients. -/
theorem c1_two_stage_fit (E : Ext) (P : Params) (fs : FS)
    (mdts : List Batch) (tbl : Table) (og : ℕ) (hog : og < P.ogc)
    (hu : (mergeAcc fs (toString (og + 1)) mdts).used = true) :
    (P.aberr_n_max < 3 →
      parametricFit E P fs mdts tbl og Label.beamtiltX =
        CellV.num (optFit E P (mergeAcc fs (toString (og + 1)) mdts) og).1.tilt_x ∧
      parametricFit E P fs mdts tbl og Label.beamtiltY =
        CellV.num (optFit E P (mergeAcc fs (toString (og + 1)) mdts) og).1.tilt_y ∧
      parametricFit E P fs mdts tbl og Label.oddZernikeCoeffs =
        tbl og Label.oddZernikeCoeffs) ∧
    (3 ≤ P.aberr_n_max →
      parametricFit E P fs mdts tbl og Label.oddZernikeCoeffs =
        CellV.vec (optZer E P (mergeAcc fs (toString (og + 1)) mdts) og).1 ∧
      parametricFit E P fs mdts tbl og Label.beamtiltX =
        CellV.num (E.extractTilt
          (optZer E P (mergeAcc fs (toString (og + 1)) mdts) og).1
          (P.Cs og) (P.lambda og)).1 ∧
      parametricFit E P fs mdts tbl og Label.beamtiltY =
        CellV.num (E.extractTilt
          (optZer E P (mergeAcc fs (toString (og + 1)) mdts) og).1
          (P.Cs og) (P.lambda og)).2) := by
  have hfalse : ¬((mergeAcc fs (toString (og + 1)) mdts).used = false) := by
    simp [hu]
  constructor
  · intro hab
    refine ⟨?_, ?_, ?_⟩ <;>
      rw [parametricFit_row, if_pos hog, fitGroup_self_row, if_neg hfalse,
        if_pos hab] <;> simp
  · intro hab
    have hab2 : ¬(P.aberr_n_max < 3) := Int.not_lt.mpr hab
    refine ⟨?_, ?_, ?_⟩ <;>
      rw [parametricFit_row, if_pos hog, fitGroup_self_row, if_neg hfalse,
        if_neg hab2] <;> simp

theorem c1_two_stage_fit_witness :
    (parametricFit sampleExt sampleP fsAll [sampleBatch] sampleTbl 0
        Label.beamtiltX =
      CellV.num (optFit sampleExt sampleP
        (mergeAcc fsAll (toString (0 + 1)) [sampleBatch]) 0).1.tilt_x ∧
     parametricFit sampleExt sampleP fsAll [sampleBatch] sampleTbl 0
        Label.beamtiltY =
      CellV.num (optFit sampleExt sampleP
        (mergeAcc fsAll (toString (0 + 1)) [sampleBatch]) 0).1.tilt_y ∧
     parametricFit sampleExt sampleP fsAll [sampleBatch] sampleTbl 0
        Label.oddZernikeCoeffs = sampleTbl 0 Label.oddZernikeCoeffs) ∧
    (parametricFit sampleExt samplePZ fsAll [sampleBatch] sampleTbl 0
        Label.oddZernikeCoeffs =
      CellV.vec (optZer sampleExt samplePZ
        (mergeAcc fsAll (toString (0 + 1)) [sampleBatch]) 0).1 ∧
     parametricFit sampleExt samplePZ fsAll [sampleBatch] sampleTbl 0
        Label.beamtiltX =
      CellV.num (sampleExt.extractTilt
        (optZer sampleExt samplePZ
          (mergeAcc fsAll (toString (0 + 1)) [sampleBatch]) 0).1
        (samplePZ.Cs 0) (samplePZ.lambda 0)).1 ∧
     parametricFit sampleExt samplePZ fsAll [sampleBatch] sampleTbl 0
        Label.beamtiltY =
      CellV.num (sampleExt.extractTilt
        (optZer sampleExt samplePZ
          (mergeAcc fsAll (toString (0 + 1)) [sampleBatch]) 0).1
        (samplePZ.Cs 0) (samplePZ.lambda 0)).2) :=
  ⟨(c1_two_stage_fit sampleExt sampleP fsAll [sampleBatch] sampleTbl 0
      (by decide) (by decide)).1 (by decide),
   (c1_two_stage_fit sampleExt samplePZ fsAll [sampleBatch] sampleTbl 0
      (by decide) (by decide)).2 (by decide)⟩

/-- C9: `parametricFit` changes, in the output optics table, only the
beam-tilt X and beam-tilt Y cells — and, when `aberr_n_max ≥ 3`, the
odd-Zernike-coefficient cell — of the rows of groups that had at least one
checkpoint pair on disk; every other cell of the table is left unchanged. -/
theorem c9_table_frame (E : Ext) (P : Params) (fs : FS) (mdts : List Batch)
    (tbl : Table) (r : ℕ) (c : Label)
    (hne : parametricFit E P fs mdts tbl r c ≠ tbl r c) :
    r < P.ogc ∧ (mergeAcc fs (toString (r + 1)) mdts).used = true ∧
    (c = Label.beamtiltX ∨ c = Label.beamtiltY ∨
      (3 ≤ P.aberr_n_max ∧ c = Label.oddZernikeCoeffs)) := by
  rw [parametricFit_row] at hne
  by_cases hr : r < P.ogc
  · rw [if_pos hr, fitGroup_self_row] at hne
    refine ⟨hr, ?_, ?_⟩
    · by_cases hu : (mergeAcc fs (toString (r + 1)) mdts).used = false
      · rw [if_pos hu] at hne
        exact absurd rfl hne
      · simpa using hu
    · by_cases hu : (mergeAcc fs (toString (r + 1)) mdts).used = false
      · rw [if_pos hu] at hne
        exact absurd rfl hne
      · rw [if_neg hu] at hne
        by_cases hab : P.aberr_n_max < 3
        · rw [if_pos hab] at hne
          by_cases hc1 : c = Label.beamtiltY
          · exact Or.inr (Or.inl hc1)
          · rw [if_neg hc1] at hne
            by_cases hc2 : c = Label.beamtiltX
            · exact Or.inl hc2
            · rw [if_neg hc2] at hne
              exact absurd rfl hne
        · rw [if_neg hab] at hne
          by_cases hc0 : c = Label.oddZernikeCoeffs
          · exact Or.inr (Or.inr ⟨Int.not_lt.mp hab, hc0⟩)
          · rw [if_neg hc0] at hne
            by_cases hc1 : c = Label.beamtiltY
            · exact Or.inr (Or.inl hc1)
            · rw [if_neg hc1] at hne
              by_cases hc2 : c = Label.beamtiltX
              · exact Or.inl hc2
              · rw [if_neg hc2] at hne
                exact absurd rfl hne
  · rw [if_neg hr] at hne
    exact absurd rfl hne

theorem c9_table_frame_witness :
    0 < sampleP.ogc ∧
    (mergeAcc fsAll (toString (0 + 1)) [sampleBatch]).used = true ∧
    (Label.beamtiltX = Label.beamtiltX ∨ Label.beamtiltX = Label.beamtiltY ∨
      (3 ≤ sampleP.aberr_n_max ∧
        Label.beamtiltX = Label.oddZernikeCoeffs)) :=
  c9_table_frame sampleExt sampleP fsAll [sampleBatch] sampleTbl 0
    Label.beamtiltX (by decide)

theorem foldl_mergeStep_all_none (fs : FS) (cns : String) (mdts : List Batch)
    (h : ∀ b ∈ mdts, batchContrib fs cns b = none) :
    ∀ st : MergeSt, mdts.foldl (mergeStep fs cns) st = st := by
  induction mdts with
  | nil => intro st; rfl
  | cons b mdts ih =>
    intro st
    rw [List.foldl_cons,
      show mergeStep fs cns st b = st by
        simp [mergeStep, h b (List.mem_cons_self _ _)]]
    exact ih (fun bb hbb => h bb (List.mem_cons_of_mem _ hbb)) st

theorem fitGroup_unused (E : Ext) (P : Params) (fs : FS) (mdts : List Batch)
    (tbl : Table) (og : ℕ)
    (h : (mergeAcc fs (toString (og + 1)) mdts).used = false) :
    fitGroup E P fs mdts tbl og = tbl := by
  simp [fitGroup, h]

theorem foldl_erase_of_fixed {α β : Type} [DecidableEq α] (f : β → α → β)
    (a : α) (l : List α) (hfix : ∀ b, f b a = b) :
    ∀ i : β, l.foldl f i = (l.erase a).foldl f i := by
  induction l with
  | nil => intro i; rfl
  | cons x l ih =>
    intro i
    by_cases hx : x = a
    · subst hx
      rw [List.erase_cons_head, List.foldl_cons, hfix]
    · rw [List.erase_cons_tail (by simp [hx]), List.foldl_cons,
        List.foldl_cons, ih]

/-- C5: a batch whose checkpoint files for a group are missing is skipped
silently by the merge loop of `parametricFit` (removing it from the batch
list changes nothing), and a group to which no batch contributed is skipped
without error: its fit leaves the table untouched and the group loop
degenerates to the loop over the remaining groups. -/
theorem c5_missing_checkpoints_skipped (E : Ext) (P : Params) (fs : FS)
    (cns : String) (l1 l2 : List Batch) (b : Batch) (mdts : List Batch)
    (tbl : Table) (og : ℕ) :
    (batchContrib fs cns b = none →
      mergeAcc fs cns (l1 ++ b :: l2) = mergeAcc fs cns (l1 ++ l2)) ∧
    ((∀ bb ∈ mdts, batchContrib fs (toString (og + 1)) bb = none) →
      fitGroup E P fs mdts tbl og = tbl ∧
      parametricFit E P fs mdts tbl =
        ((List.range P.ogc).erase og).foldl (fitGroup E P fs mdts) tbl) := by
  constructor
  · intro hb
    unfold mergeAcc
    rw [List.foldl_append, List.foldl_cons,
      show mergeStep fs cns (l1.foldl (mergeStep fs cns) ⟨0, 0, false⟩) b =
          l1.foldl (mergeStep fs cns) ⟨0, 0, false⟩ by
        simp [mergeStep, hb],
      List.foldl_append]
  · intro hall
    have hmerge : mergeAcc fs (toString (og + 1)) mdts = ⟨0, 0, false⟩ :=
      foldl_mergeStep_all_none fs (toString (og + 1)) mdts hall _
    have hused : (mergeAcc fs (toString (og + 1)) mdts).used = false := by
      rw [hmerge]
    refine ⟨fitGroup_unused E P fs mdts tbl og hused, ?_⟩
    unfold parametricFit
    exact foldl_erase_of_fixed (fitGroup E P fs mdts) og (List.range P.ogc)
      (fun tb => fitGroup_unused E P fs mdts tb og hused) tbl

theorem c5_missing_checkpoints_skipped_witness :
    mergeAcc fsNone "1" ([sampleBatch] ++ badBatch :: []) =
      mergeAcc fsNone "1" ([sampleBatch] ++ []) ∧
    fitGroup sampleExt sampleP fsNone [sampleBatch] sampleTbl 0 = sampleTbl ∧
    parametricFit sampleExt sampleP fsNone [sampleBatch] sampleTbl =
      ((List.range sampleP.ogc).erase 0).foldl
        (fitGroup sampleExt sampleP fsNone [sampleBatch]) sampleTbl := by
  obtain ⟨h1, h2⟩ := c5_missing_checkpoints_skipped sampleExt sampleP fsNone
    "1" [sampleBatch] [] badBatch [sampleBatch] sampleTbl 0
  obtain ⟨h3, h4⟩ := h2 (by
    intro bb hbb
    simp only [List.mem_singleton] at hbb
    subst hbb
    rfl)
  exact ⟨h1 rfl, h3, h4⟩

/-- C6: a particle whose declared optics group is not among the registry
defined groups `1..ogc` makes the validated load step fail with a
configuration error before any accumulation or checkpoint write happens;
when every referenced group is defined, `processMicrograph` runs. -/
theorem c6_undefined_group_blocking (ogc : ℕ) (fs : FS) (mdt : Batch)
    (xySums : ℕ → CImg) (wSums : ℕ → RImg) (g : ℕ)
    (hg : g ∈ mdt.particles) (hundef : ¬(1 ≤ g ∧ g ≤ ogc)) :
    loadAndProcess ogc fs mdt xySums wSums =
      Except.error
        ("ERROR: undefined optics groups referenced in " ++ mdt.outRoot) ∧
    ∀ mdt2 xySums2 wSums2,
      (∀ g2 ∈ optGroupsPresent mdt2, 1 ≤ g2 ∧ g2 ≤ ogc) →
      loadAndProcess ogc fs mdt2 xySums2 wSums2 =
        Except.ok (processMicrographFS fs mdt2 xySums2 wSums2) := by
  constructor
  · have hmem : g ∈ findUndefinedOptGroups ogc mdt := by
      unfold findUndefinedOptGroups
      rw [List.mem_filter]
      refine ⟨?_, ?_⟩
      · unfold optGroupsPresent
        exact List.mem_dedup.mpr hg
      · simp only [Bool.not_eq_true']
        rw [Bool.and_eq_false_iff]
        rcases Decidable.not_and_iff_or_not.mp hundef with h | h
        · exact Or.inl (by simpa using h)
        · exact Or.inr (by simpa using h)
    unfold loadAndProcess
    rw [if_pos (List.ne_nil_of_mem hmem)]
  · intro mdt2 xySums2 wSums2 hall
    unfold loadAndProcess
    rw [if_neg ?_]
    simp only [ne_eq, Decidable.not_not]
    rw [List.eq_nil_iff_forall_not_mem]
    intro g2 hg2
    unfold findUndefinedOptGroups at hg2
    rw [List.mem_filter] at hg2
    obtain ⟨hgd, hcond⟩ := hg2
    obtain ⟨hlo, hhi⟩ := hall g2 hgd
    simp [hlo, hhi] at hcond

theorem c6_undefined_group_blocking_witness :
    loadAndProcess 1 fsNone badBatch (fun _ _ _ => (0, 0)) (fun _ => oneImg) =
      Except.error
        ("ERROR: undefined optics groups referenced in " ++ badBatch.outRoot) ∧
    ∀ mdt2 xySums2 wSums2,
      (∀ g2 ∈ optGroupsPresent mdt2, 1 ≤ g2 ∧ g2 ≤ 1) →
      loadAndProcess 1 fsNone mdt2 xySums2 wSums2 =
        Except.ok (processMicrographFS fsNone mdt2 xySums2 wSums2) :=
  c6_undefined_group_blocking 1 fsNone badBatch (fun _ _ _ => (0, 0))
    (fun _ => oneImg) 5 (by decide) (by decide)

/-- C7: the checkpoint write of a (batch, group) pair never exposes a
partially written pair under its final identity: after any prefix of the
write trace, the three final checkpoint names either all still hold what
the reader saw before the write, or all hold the complete new contents —
the switch happens in the single atomic publish step. -/
theorem c7_stage_then_publish (outRoot cns : String) (reC imC w : RImg)
    (prov pub : FS)
    (h12 : xyRealName outRoot cns ≠ xyImagName outRoot cns)
    (h13 : xyRealName outRoot cns ≠ wName outRoot cns)
    (h23 : xyImagName outRoot cns ≠ wName outRoot cns) :
    ∀ k : ℕ,
      ((runW ⟨prov, pub⟩ ((writePairTrace outRoot cns reC imC w).take k)).pub
          (xyRealName outRoot cns) = pub (xyRealName outRoot cns) ∧
       (runW ⟨prov, pub⟩ ((writePairTrace outRoot cns reC imC w).take k)).pub
          (xyImagName outRoot cns) = pub (xyImagName outRoot cns) ∧
       (runW ⟨prov, pub⟩ ((writePairTrace outRoot cns reC imC w).take k)).pub
          (wName outRoot cns) = pub (wName outRoot cns)) ∨
      ((runW ⟨prov, pub⟩ ((writePairTrace outRoot cns reC imC w).take k)).pub
          (xyRealName outRoot cns) = some reC ∧
       (runW ⟨prov, pub⟩ ((writePairTrace outRoot cns reC imC w).take k)).pub
          (xyImagName outRoot cns) = some imC ∧
       (runW ⟨prov, pub⟩ ((writePairTrace outRoot cns reC imC w).take k)).pub
          (wName outRoot cns) = some w) := by
  intro k
  match k with
  | 0 => exact Or.inl ⟨rfl, rfl, rfl⟩
  | 1 => exact Or.inl ⟨rfl, rfl, rfl⟩
  | 2 => exact Or.inl ⟨rfl, rfl, rfl⟩
  | 3 => exact Or.inl ⟨rfl, rfl, rfl⟩
  | (n + 4) =>
    right
    have htake : (writePairTrace outRoot cns reC imC w).take (n + 4) =
        writePairTrace outRoot cns reC imC w :=
      List.take_of_length_le (by
        simp only [writePairTrace, List.length_cons, List.length_nil]
        omega)
    rw [htake]
    refine ⟨?_, ?_, ?_⟩ <;>
      simp [runW, wstep, writePairTrace, List.find?, h12, h13, h23,
        Ne.symm h12, Ne.symm h13, Ne.symm h23]

theorem c7_stage_then_publish_witness :
    ((runW ⟨fsNone, fsNone⟩
        ((writePairTrace "r" "1" oneImg oneImg oneImg).take 4)).pub
        (xyRealName "r" "1") = fsNone (xyRealName "r" "1") ∧
     (runW ⟨fsNone, fsNone⟩
        ((writePairTrace "r" "1" oneImg oneImg oneImg).take 4)).pub
        (xyImagName "r" "1") = fsNone (xyImagName "r" "1") ∧
     (runW ⟨fsNone, fsNone⟩
        ((writePairTrace "r" "1" oneImg oneImg oneImg).take 4)).pub
        (wName "r" "1") = fsNone (wName "r" "1")) ∨
    ((runW ⟨fsNone, fsNone⟩
        ((writePairTrace "r" "1" oneImg oneImg oneImg).take 4)).pub
        (xyRealName "r" "1") = some oneImg ∧
     (runW ⟨fsNone, fsNone⟩
        ((writePairTrace "r" "1" oneImg oneImg oneImg).take 4)).pub
        (xyImagName "r" "1") = some oneImg ∧
     (runW ⟨fsNone, fsNone⟩
        ((writePairTrace "r" "1" oneImg oneImg oneImg).take 4)).pub
        (wName "r" "1") = some oneImg) :=
  c7_stage_then_publish "r" "1" oneImg oneImg oneImg fsNone fsNone
    (by decide) (by decide) (by decide) 4

end Relion
